import Mathlib

/-!
Shallow embedding of the correlation-and-batch-loading pipeline
(`src/pipeline.py`) and proofs about it.

Conventions of the embedding:
* A directory listing (`os.listdir`) is a `List Entry` in enumeration order;
  the whole on-disk state is a function `FS` from a directory path to its
  optional listing (`none` models a missing directory, where `listdir`
  raises `FileNotFoundError`).
* A fallible Python computation is an `Except Unit` value.
* Python dicts built by insertion are association lists in insertion order;
  `dict[k] = v` keeps the position of an existing key while updating its
  value, which `dictInsert` mirrors.
* The id extractors are the two lambdas passed to `_get_path_by_id`
  (`int(f.split(sep)[i])`); `pyInt` models the builtin `int` on strings
  (surrounding whitespace, an optional sign, then decimal digits; the
  underscore digit separators of Python 3.6 are not modelled since no
  claim touches them), and `splitChar` models `str.split` with a
  one-character separator.
-/

/-- A directory entry: its filename and whether `os.path.isfile` holds for
the joined path. -/
structure Entry where
  name : String
  isfile : Bool
deriving DecidableEq, Repr

/-- `os.path.join(a, b)` on POSIX. -/
def pathJoin (a b : String) : String := a ++ "/" ++ b

/-- `str.split(sep)` for a single-character separator, on the character
list: splits at every occurrence of `sep`, keeping empty parts, and always
returns at least one part. -/
def splitChar (sep : Char) : List Char → List Char → List (List Char)
  | [], cur => [cur.reverse]
  | c :: rest, cur =>
    if c = sep then cur.reverse :: splitChar sep rest []
    else splitChar sep rest (c :: cur)

/-- Python `int(s)` for a string argument: strip surrounding whitespace,
allow one optional sign, then require at least one decimal digit; any other
shape raises `ValueError`, modelled as `none`. -/
def pyInt (cs : List Char) : Option Int :=
  let t := ((cs.dropWhile Char.isWhitespace).reverse.dropWhile Char.isWhitespace).reverse
  let (neg, ds) :=
    match t with
    | '-' :: rest => (true, rest)
    | '+' :: rest => (false, rest)
    | _ => (false, t)
  if ds ≠ [] ∧ ds.all Char.isDigit then
    let n : Nat := ds.foldl (fun acc c => 10 * acc + (c.toNat - 48)) 0
    some (if neg then -(n : Int) else (n : Int))
  else none

/-- The dicom id extractor, `lambda f: int(f.split('.')[0])`
(src/pipeline.py line 181).  `split` always yields a first part, so only
`int` can fail. -/
def dicomGetId (f : String) : Option Int :=
  pyInt ((splitChar '.' f.toList []).headD [])

/-- The contour id extractor, `lambda f: int(f.split('-')[2])`
(src/pipeline.py line 188).  Fewer than three parts raises `IndexError`,
caught by the bare `except` in `_get_path_by_id`, hence `none`. -/
def contourGetId (f : String) : Option Int :=
  match splitChar '-' f.toList [] with
  | _ :: _ :: p :: _ => pyInt p
  | _ => none

/-- The loop body of `_get_path_by_id` (src/pipeline.py lines 146-159):
walk the directory entries in enumeration order, skip non-files silently,
skip entries whose id does not parse (warning only), and on a duplicate id
keep the entry already present (warning only).  `acc` is the dict built so
far, as an association list in insertion order. -/
def getPathByIdAux (base : String) (getId : String → Option Int) :
    List Entry → List (Int × String) → List (Int × String)
  | [], acc => acc
  | e :: rest, acc =>
    if e.isfile then
      match getId e.name with
      | none => getPathByIdAux base getId rest acc
      | some i =>
        if (acc.lookup i).isSome then getPathByIdAux base getId rest acc
        else getPathByIdAux base getId rest (acc ++ [(i, pathJoin base e.name)])
    else getPathByIdAux base getId rest acc

/-- `_get_path_by_id(base_path, get_id_func)` (src/pipeline.py lines
142-160) applied to a directory listing. -/
def getPathById (base : String) (getId : String → Option Int)
    (es : List Entry) : List (Int × String) :=
  getPathByIdAux base getId es []

/-- The (id, filename) pairs of the regular-file entries whose id parses,
in enumeration order.  The first occurrence of an id in this list is the
entry `_get_path_by_id` keeps for that id. -/
def parsedFiles (getId : String → Option Int) (es : List Entry) :
    List (Int × String) :=
  es.filterMap (fun e =>
    if e.isfile then (getId e.name).map (fun i => (i, e.name)) else none)

/-- Python dict assignment `m[k] = v`: an existing key keeps its position
and gets the new value, a new key is appended. -/
def dictInsert (m : List (String × String)) (k v : String) :
    List (String × String) :=
  if (m.lookup k).isSome then
    m.map (fun p => if p.1 = k then (k, v) else p)
  else m ++ [(k, v)]

/-- `_get_cid_by_did` (src/pipeline.py lines 125-140) applied to the parsed
csv rows: build the dicom-id to contour-id dict row by row; a repeated
dicom id overwrites (last row wins). -/
def getCidByDid (rows : List (String × String)) : List (String × String) :=
  rows.foldl (fun m r => dictInsert m r.1 r.2) []

/-- Lexicographic comparison of character lists by code point, as Python
compares strings. -/
def charListLe : List Char → List Char → Bool
  | [], _ => true
  | _ :: _, [] => false
  | a :: as, b :: bs => if a = b then charListLe as bs else decide (a < b)

/-- Python `<=` on strings (code-point lexicographic). -/
def strLe (a b : String) : Bool := charListLe a.toList b.toList

/-- `sorted(cid_by_did.keys())` (src/pipeline.py line 174). -/
def sortedDIds (rows : List (String × String)) : List String :=
  List.insertionSort (fun a b => strLe a b = true)
    ((getCidByDid rows).map Prod.fst)

/-- `sorted(list(dicom_ids.intersection(contour_ids)))` (src/pipeline.py
lines 192-194): the keys of the dicom index that are also keys of the
contour index, in ascending order.  The key list of an index built by
`_get_path_by_id` has no duplicates, so no dedup step is needed. -/
def commonIds (dMap cMap : List (Int × String)) : List Int :=
  List.insertionSort (fun a b => a ≤ b)
    ((dMap.map Prod.fst).filter (fun i => (cMap.lookup i).isSome))

/-- The per-group pairing of `_get_dicom_contour_path_tups` (src/pipeline.py
lines 177-200), given the two directory listings: build both indexes, take
the sorted common ids, and emit one (dicom_path, contour_path) tuple per
common id.  The dict lookups always succeed for a common id; `getD` only
supplies a default Lean needs syntactically. -/
def correlateGroupPaths (dBase cBase : String)
    (gd gc : String → Option Int) (dEs cEs : List Entry) :
    List (String × String) :=
  let dMap := getPathById dBase gd dEs
  let cMap := getPathById cBase gc cEs
  (commonIds dMap cMap).map
    (fun i => ((dMap.lookup i).getD "", (cMap.lookup i).getD ""))

/-- The on-disk state: each directory path maps to its `listdir`
enumeration, `none` when the directory does not exist (where `listdir`
raises `FileNotFoundError`). -/
def FS := String → Option (List Entry)

/-- One iteration of the group loop of `_get_dicom_contour_path_tups`
(src/pipeline.py lines 174-200): resolve both group directories (a missing
one raises, aborting the whole pass) and pair up their common ids using the
two id extractor lambdas. -/
def correlateGroup (fs : FS) (dicomDir contourDir dId cId : String) :
    Except Unit (List (String × String)) :=
  let dBase := pathJoin dicomDir dId
  let cBase := pathJoin (pathJoin contourDir cId) "i-contours"
  match fs dBase, fs cBase with
  | some dEs, some cEs =>
      .ok (correlateGroupPaths dBase cBase dicomGetId contourGetId dEs cEs)
  | _, _ => .error ()

/-- The accumulation step of the group loop: append the pairs of one group
to the tuples collected so far, or abort on a structural failure. -/
def correlateStep (fs : FS) (dicomDir contourDir : String)
    (cidByDid : List (String × String))
    (acc : List (String × String)) (dId : String) :
    Except Unit (List (String × String)) :=
  match correlateGroup fs dicomDir contourDir dId
      ((cidByDid.lookup dId).getD "") with
  | .error e => .error e
  | .ok ps => .ok (acc ++ ps)

/-- The non-shuffled part of `_get_dicom_contour_path_tups` (src/pipeline.py
lines 162-200): iterate over the dicom ids in ascending order and collect
each group's pairs. -/
def correlatePairs (fs : FS) (rows : List (String × String))
    (dicomDir contourDir : String) :
    Except Unit (List (String × String)) :=
  (sortedDIds rows).foldlM
    (correlateStep fs dicomDir contourDir (getCidByDid rows)) []

/-- `x[i], x[j] = x[j], x[i]` on a list, identity when either index is out
of range (never the case in `random.shuffle`). -/
def listSwap (l : List α) (i j : Nat) : List α :=
  match l[i]?, l[j]? with
  | some a, some b => (l.set i b).set j a
  | _, _ => l

/-- The loop of CPython `random.shuffle`:
`for i in reversed(range(1, len(x))): j = randbelow(i+1); swap i j`.
`rand i` is the raw draw consumed at index `i`; `% (i+1)` keeps it in
range, as `_randbelow` guarantees. -/
def fisherYatesGo (rand : Nat → Nat) : Nat → List α → List α
  | 0, l => l
  | c + 1, l => fisherYatesGo rand c (listSwap l (c + 1) (rand (c + 1) % (c + 2)))

/-- `random.shuffle(x)` driven by the draw stream `rand`. -/
def fisherYates (rand : Nat → Nat) (l : List α) : List α :=
  fisherYatesGo rand (l.length - 1) l

/-- `_get_dicom_contour_path_tups` (src/pipeline.py lines 162-211) in full.
`seedStream s` is the pseudo-random draw stream of the generator after
`seed(s)` (a fixed function of the seed); `entropy` is the draw stream of
the ambient, unseeded generator state, which differs from run to run.  When
`random_seed` is provided the code calls `seed(random_seed)` first, so the
draws come from `seedStream`; otherwise they come from `entropy`. -/
def getDicomContourPathTups (fs : FS) (rows : List (String × String))
    (dicomDir contourDir : String) (randomize : Bool) (randSeed : Option Nat)
    (seedStream : Nat → Nat → Nat) (entropy : Nat → Nat) :
    Except Unit (List (String × String)) :=
  match correlatePairs fs rows dicomDir contourDir with
  | .error e => .error e
  | .ok tups =>
    if randomize then
      let rand := match randSeed with
        | some s => seedStream s
        | none => entropy
      .ok (fisherYates rand tups)
    else .ok tups

/-- The section sizes of `np.array_split` for a sequence of length `n` cut
into `k` sections: `n % k` sections of size `n / k + 1`, then the rest of
size `n / k`. -/
def arraySplitSizes (n k : Nat) : List Nat :=
  (List.range k).map (fun i => if i < n % k then n / k + 1 else n / k)

/-- Cut a list into consecutive pieces of the given sizes. -/
def splitBySizes : List Nat → List α → List (List α)
  | [], _ => []
  | s :: rest, l => l.take s :: splitBySizes rest (l.drop s)

/-- `np.array_split(l, k)` (src/pipeline.py line 86): always exactly `k`
sections (possibly empty), never sections of size `k`. -/
def arraySplit (l : List α) (k : Nat) : List (List α) :=
  splitBySizes (arraySplitSizes l.length k) l

/-- How an iteration of `BatchFeeder.get_next_batch` ends once all batches
are out: cleanly exhausted, or with the `RuntimeError` that Python 3.7+
(PEP 479) raises when a generator body executes `raise StopIteration`. -/
inductive FeederEnd where
  | exhausted
  | runtimeError
deriving DecidableEq, Repr

/-- `BatchFeeder._load_next_batch` (src/pipeline.py lines 103-110) with `k`
chunks in total: if a chunk is left, start a worker for it and advance
`_batch_num`; return the new `_batch_num` and whether more chunks remain. -/
def loadNextBatch (k bn : Nat) : Nat × Bool :=
  if bn < k then (bn + 1, decide (bn + 1 < k)) else (bn, decide (bn < k))

/-- The `while self._have_next_batch` loop of `get_next_batch`
(src/pipeline.py lines 114-116), counting its yields; `fuel` is the loop
variant `k - bn`, strictly decreasing, so the recursion is structural.  The
loop body first runs `_load_next_batch` and then yields one `q.get()`.
When `hasNext` is true the invariant `bn < k` holds, so the branches where
`bn < k` fails (there `_load_next_batch` leaves `bn` and reports no further
batch: one final yield, then the loop exits) are never reached from
`feederLoop`; they are spelled out to keep the function total. -/
def feederLoopGo (k : Nat) : Nat → Nat → Bool → Nat
  | _, _, false => 0
  | 0, _, true => 1
  | fuel + 1, bn, true =>
    if bn < k then 1 + feederLoopGo k fuel (bn + 1) (decide (bn + 1 < k))
    else 1

/-- The while loop entered with counter `bn` and condition `hasNext`. -/
def feederLoop (k bn : Nat) (hasNext : Bool) : Nat :=
  feederLoopGo k (k - bn) bn hasNext

/-- A full run of `BatchFeeder` over `k` chunks: `__init__` pre-loads the
first batch (src/pipeline.py line 89), then `get_next_batch` yields inside
its while loop, yields the one remaining result, and executes
`raise StopIteration` (line 119), which the Python 3.7+ generator protocol
turns into a `RuntimeError`.  The result is the number of `q.get()` yields
and the terminal event of the iteration. -/
def feederRun (k : Nat) : Nat × FeederEnd :=
  let s := loadNextBatch k 0
  (feederLoop k s.1 s.2 + 1, FeederEnd.runtimeError)

/-- The dicom index of one group, empty when the group directory is
missing (used only to state theorems about the shape of the output; the
missing-directory case never reaches it because correlation aborts). -/
def groupDMap (fs : FS) (dicomDir dId : String) : List (Int × String) :=
  match fs (pathJoin dicomDir dId) with
  | some es => getPathById (pathJoin dicomDir dId) dicomGetId es
  | none => []

/-- The contour index of one group, empty when the group directory is
missing. -/
def groupCMap (fs : FS) (contourDir cId : String) : List (Int × String) :=
  match fs (pathJoin (pathJoin contourDir cId) "i-contours") with
  | some es =>
      getPathById (pathJoin (pathJoin contourDir cId) "i-contours")
        contourGetId es
  | none => []

/-- The sorted common slice ids of one group. -/
def groupIds (fs : FS) (dicomDir contourDir dId cId : String) : List Int :=
  commonIds (groupDMap fs dicomDir dId) (groupCMap fs contourDir cId)

/-- The pairs one group contributes, `[]` on a structural failure (where
the whole pass aborts). -/
def groupPairs (fs : FS) (dicomDir contourDir dId cId : String) :
    List (String × String) :=
  match correlateGroup fs dicomDir contourDir dId cId with
  | .ok ps => ps
  | .error _ => []

/-- Two optional directory listings that enumerate the same on-disk
entries, possibly in different orders. -/
def OptPerm : Option (List Entry) → Option (List Entry) → Prop
  | some l1, some l2 => l1.Perm l2
  | none, none => True
  | _, _ => False

/-- A one-row link table used by the concrete witnesses. -/
def exRows : List (String × String) := [("P1", "C1")]

/-- A concrete on-disk state: `d/P1` holds dicom files with slice ids
3, 1, 2 plus one unparsable file, `c/C1/i-contours` holds contour files
with slice ids 3 and 2. -/
def exFS : FS := fun p =>
  if p = "d/P1" then
    some [⟨"3.dcm", true⟩, ⟨"1.dcm", true⟩, ⟨"2.dcm", true⟩,
      ⟨"junk.txt", true⟩]
  else if p = "c/C1/i-contours" then
    some [⟨"IM-0001-0003-icontour.txt", true⟩,
      ⟨"IM-0001-0002-icontour.txt", true⟩]
  else none

/-- The same on-disk state as `exFS`, with both directories enumerated in
a different order. -/
def exFSw : FS := fun p =>
  if p = "d/P1" then
    some [⟨"junk.txt", true⟩, ⟨"2.dcm", true⟩, ⟨"1.dcm", true⟩,
      ⟨"3.dcm", true⟩]
  else if p = "c/C1/i-contours" then
    some [⟨"IM-0001-0002-icontour.txt", true⟩,
      ⟨"IM-0001-0003-icontour.txt", true⟩]
  else none

/-- An on-disk state whose dicom directory holds two files with the same
slice id 2. -/
def exFSdupA : FS := fun p =>
  if p = "d/P1" then some [⟨"2.x", true⟩, ⟨"2.y", true⟩]
  else if p = "c/C1/i-contours" then some [⟨"a-b-2-c", true⟩]
  else none

/-- The same on-disk state as `exFSdupA`, with the dicom directory
enumerated in the opposite order. -/
def exFSdupB : FS := fun p =>
  if p = "d/P1" then some [⟨"2.y", true⟩, ⟨"2.x", true⟩]
  else if p = "c/C1/i-contours" then some [⟨"a-b-2-c", true⟩]
  else none

/-! ## Association list lemmas -/

theorem lookup_isSome_iff [BEq α] [LawfulBEq α] (l : List (α × β)) (k : α) :
    (l.lookup k).isSome ↔ k ∈ l.map Prod.fst := by
  induction l with
  | nil => simp [List.lookup]
  | cons p t ih =>
    obtain ⟨a, b⟩ := p
    by_cases h : k = a
    · simp [List.lookup_cons, h]
    · have hb : (k == a) = false := by simp [h]
      simp [List.lookup_cons, hb, ih, h]

theorem lookup_eq_some_mem [BEq α] [LawfulBEq α] {l : List (α × β)} {k : α}
    {v : β} (h : l.lookup k = some v) : (k, v) ∈ l := by
  induction l with
  | nil => simp [List.lookup] at h
  | cons p t ih =>
    obtain ⟨a, b⟩ := p
    by_cases ha : k = a
    · subst ha
      simp [List.lookup_cons] at h
      simp [h]
    · have hb : (k == a) = false := by simp [ha]
      simp [List.lookup_cons, hb] at h
      exact List.mem_cons_of_mem _ (ih h)

theorem mem_lookup_iff_nodup [BEq α] [LawfulBEq α] {l : List (α × β)}
    (nd : (l.map Prod.fst).Nodup) {k : α} {v : β} :
    (k, v) ∈ l ↔ l.lookup k = some v := by
  constructor
  · intro hm
    induction l with
    | nil => simp at hm
    | cons p t ih =>
      obtain ⟨a, b⟩ := p
      simp only [List.map_cons, List.nodup_cons] at nd
      rcases List.mem_cons.1 hm with h | h
      · obtain ⟨rfl, rfl⟩ := Prod.mk.injEq .. ▸ h
        simp [List.lookup_cons]
      · have ha : k ≠ a := by
          rintro rfl
          exact nd.1 (List.mem_map.2 ⟨(k, v), h, rfl⟩)
        have hb : (k == a) = false := by simp [ha]
        simp only [List.lookup_cons, hb]
        exact ih nd.2 h
  · exact lookup_eq_some_mem

theorem lookup_append_or [BEq α] (l₁ l₂ : List (α × β)) (k : α) :
    (l₁ ++ l₂).lookup k = (l₁.lookup k).or (l₂.lookup k) := by
  induction l₁ with
  | nil => simp [List.lookup]
  | cons p t ih =>
    obtain ⟨a, b⟩ := p
    cases hb : k == a <;> simp [List.lookup_cons, hb, ih]

theorem lookup_eq_of_perm_nodup [BEq α] [LawfulBEq α] {l₁ l₂ : List (α × β)}
    (h : l₁.Perm l₂) (nd : (l₁.map Prod.fst).Nodup) (k : α) :
    l₁.lookup k = l₂.lookup k := by
  have nd₂ : (l₂.map Prod.fst).Nodup := (h.map Prod.fst).nodup nd
  cases hl : l₁.lookup k with
  | some v =>
    exact ((mem_lookup_iff_nodup nd₂).1 (h.subset (lookup_eq_some_mem hl))).symm
  | none =>
    cases hl₂ : l₂.lookup k with
    | none => rfl
    | some v =>
      have : k ∈ l₁.map Prod.fst := by
        rw [(h.map Prod.fst).mem_iff]
        exact (lookup_isSome_iff l₂ k).1 (by simp [hl₂])
      rw [← lookup_isSome_iff l₁ k] at this
      simp [hl] at this

/-! ## Path and extractor lemmas -/

theorem pathJoin_right_inj {b x y : String} (h : pathJoin b x = pathJoin b y) :
    x = y := by
  unfold pathJoin at h
  have hd : (b ++ "/" ++ x).data = (b ++ "/" ++ y).data := by rw [h]
  simp only [String.data_append] at hd
  exact String.ext (List.append_cancel_left hd)

theorem parsedFiles_nil (g : String → Option Int) : parsedFiles g [] = [] := rfl

theorem parsedFiles_cons (g : String → Option Int) (e : Entry)
    (es : List Entry) :
    parsedFiles g (e :: es) =
      (if e.isfile then (g e.name).map (fun i => (i, e.name)) else none).toList
        ++ parsedFiles g es := by
  unfold parsedFiles
  rw [List.filterMap_cons]
  cases hf : e.isfile <;> simp [hf] <;> cases g e.name <;> simp

theorem mem_parsedFiles_keys (g : String → Option Int) (es : List Entry)
    (i : Int) :
    i ∈ (parsedFiles g es).map Prod.fst ↔
      ∃ e, e ∈ es ∧ e.isfile = true ∧ g e.name = some i := by
  unfold parsedFiles
  constructor
  · intro h
    obtain ⟨⟨i2, n⟩, hm, hfst⟩ := List.mem_map.1 h
    obtain ⟨e, he, hv⟩ := List.mem_filterMap.1 hm
    by_cases hf : e.isfile
    · simp only [hf, if_true] at hv
      cases hge : g e.name with
      | none => simp [hge] at hv
      | some z =>
        simp [hge] at hv
        refine ⟨e, he, hf, ?_⟩
        rw [hge, hv.1, ← hfst]
    · simp [hf] at hv
  · rintro ⟨e, he, hf, hg⟩
    exact List.mem_map.2 ⟨(i, e.name),
      List.mem_filterMap.2 ⟨e, he, by simp [hf, hg]⟩, rfl⟩

/-! ## Characterization of `_get_path_by_id` -/

theorem getPathByIdAux_lookup (base : String) (getId : String → Option Int)
    (es : List Entry) (acc : List (Int × String)) (i : Int) :
    (getPathByIdAux base getId es acc).lookup i =
      (acc.lookup i).or
        (((parsedFiles getId es).lookup i).map (pathJoin base)) := by
  induction es generalizing acc with
  | nil => simp [getPathByIdAux, parsedFiles, List.lookup]
  | cons e rest ih =>
    by_cases hf : e.isfile
    · cases hg : getId e.name with
      | none =>
        simp only [getPathByIdAux, hf, if_true, hg]
        rw [ih, parsedFiles_cons]
        simp [hf, hg]
      | some j =>
        by_cases hacc : (acc.lookup j).isSome
        · simp only [getPathByIdAux, hf, if_true, hg, hacc]
          rw [ih, parsedFiles_cons]
          simp only [hf, if_true, hg, Option.map_some, Option.toList_some,
            List.singleton_append]
          by_cases hij : i = j
          · subst hij
            obtain ⟨v, hv⟩ := Option.isSome_iff_exists.1 hacc
            simp [List.lookup_cons, hv]
          · have hb : (i == j) = false := by simp [hij]
            simp [List.lookup_cons, hb]
        · have hacc2 : (acc.lookup j).isSome = false := by
            cases h2 : (acc.lookup j).isSome
            · rfl
            · exact absurd h2 hacc
          simp only [getPathByIdAux, hf, if_true, hg, hacc2,
            Bool.false_eq_true, if_false]
          rw [ih, parsedFiles_cons]
          simp only [hf, if_true, hg, Option.map_some, Option.toList_some,
            List.singleton_append, lookup_append_or]
          by_cases hij : i = j
          · subst hij
            have hn : acc.lookup i = none := by
              cases h : acc.lookup i
              · rfl
              · simp [h] at hacc
            simp [List.lookup_cons, hn, Option.or_assoc]
          · have hb : (i == j) = false := by simp [hij]
            simp [List.lookup_cons, hb, Option.or_assoc]
    · have hf2 : e.isfile = false := by simpa using hf
      simp only [getPathByIdAux, hf2, Bool.false_eq_true, if_false]
      rw [ih, parsedFiles_cons]
      simp [hf2]

theorem getPathByIdAux_keys_nodup (base : String)
    (getId : String → Option Int) (es : List Entry)
    (acc : List (Int × String)) (h : (acc.map Prod.fst).Nodup) :
    ((getPathByIdAux base getId es acc).map Prod.fst).Nodup := by
  induction es generalizing acc with
  | nil => simpa [getPathByIdAux] using h
  | cons e rest ih =>
    by_cases hf : e.isfile
    · cases hg : getId e.name with
      | none => simp only [getPathByIdAux, hf, if_true, hg]; exact ih acc h
      | some j =>
        by_cases hacc : (acc.lookup j).isSome
        · simp only [getPathByIdAux, hf, if_true, hg, hacc]
          exact ih acc h
        · have hacc2 : (acc.lookup j).isSome = false := by
            cases h2 : (acc.lookup j).isSome
            · rfl
            · exact absurd h2 hacc
          simp only [getPathByIdAux, hf, if_true, hg, hacc2,
            Bool.false_eq_true, if_false]
          refine ih _ ?_
          have hj : j ∉ acc.map Prod.fst := by
            rw [← lookup_isSome_iff]
            simp [hacc2]
          simp [List.nodup_append, h, hj]
    · have hf2 : e.isfile = false := by simpa using hf
      simp only [getPathByIdAux, hf2, Bool.false_eq_true, if_false]
      exact ih acc h

theorem getPathByIdAux_mem (base : String) (getId : String → Option Int)
    (es : List Entry) (acc : List (Int × String)) {i : Int} {p : String}
    (h : (i, p) ∈ getPathByIdAux base getId es acc) :
    (i, p) ∈ acc ∨
      ∃ e, e ∈ es ∧ e.isfile = true ∧ getId e.name = some i ∧
        p = pathJoin base e.name := by
  induction es generalizing acc with
  | nil =>
    left
    simpa [getPathByIdAux] using h
  | cons e rest ih =>
    by_cases hf : e.isfile
    · cases hg : getId e.name with
      | none =>
        simp only [getPathByIdAux, hf, if_true, hg] at h
        rcases ih _ h with hl | ⟨e2, he2, h1, h2, h3⟩
        · exact Or.inl hl
        · exact Or.inr ⟨e2, List.mem_cons_of_mem _ he2, h1, h2, h3⟩
      | some j =>
        by_cases hacc : (acc.lookup j).isSome
        · simp only [getPathByIdAux, hf, if_true, hg, hacc] at h
          rcases ih _ h with hl | ⟨e2, he2, h1, h2, h3⟩
          · exact Or.inl hl
          · exact Or.inr ⟨e2, List.mem_cons_of_mem _ he2, h1, h2, h3⟩
        · have hacc2 : (acc.lookup j).isSome = false := by
            cases h2 : (acc.lookup j).isSome
            · rfl
            · exact absurd h2 hacc
          simp only [getPathByIdAux, hf, if_true, hg, hacc2,
            Bool.false_eq_true, if_false] at h
          rcases ih _ h with hl | ⟨e2, he2, h1, h2, h3⟩
          · rcases List.mem_append.1 hl with hl2 | hl2
            · exact Or.inl hl2
            · simp at hl2
              obtain ⟨rfl, rfl⟩ := hl2
              exact Or.inr ⟨e, List.mem_cons_self .., hf, hg, rfl⟩
          · exact Or.inr ⟨e2, List.mem_cons_of_mem _ he2, h1, h2, h3⟩
    · have hf2 : e.isfile = false := by simpa using hf
      simp only [getPathByIdAux, hf2, Bool.false_eq_true, if_false] at h
      rcases ih _ h with hl | ⟨e2, he2, h1, h2, h3⟩
      · exact Or.inl hl
      · exact Or.inr ⟨e2, List.mem_cons_of_mem _ he2, h1, h2, h3⟩

theorem getPathById_lookup (base : String) (getId : String → Option Int)
    (es : List Entry) (i : Int) :
    (getPathById base getId es).lookup i =
      ((parsedFiles getId es).lookup i).map (pathJoin base) := by
  unfold getPathById
  rw [getPathByIdAux_lookup]
  simp [List.lookup]

theorem getPathById_keys_nodup (base : String) (getId : String → Option Int)
    (es : List Entry) :
    ((getPathById base getId es).map Prod.fst).Nodup :=
  getPathByIdAux_keys_nodup base getId es [] (by simp)

theorem getPathById_mem (base : String) (getId : String → Option Int)
    (es : List Entry) {i : Int} {p : String}
    (h : (i, p) ∈ getPathById base getId es) :
    ∃ e, e ∈ es ∧ e.isfile = true ∧ getId e.name = some i ∧
      p = pathJoin base e.name := by
  rcases getPathByIdAux_mem base getId es [] h with hl | hr
  · simp at hl
  · exact hr

/-! ## Order properties of the code-point comparison -/

theorem charListLe_total : ∀ as bs : List Char,
    charListLe as bs = true ∨ charListLe bs as = true
  | [], _ => Or.inl rfl
  | _ :: _, [] => Or.inr rfl
  | a :: as, b :: bs => by
    by_cases h : a = b
    · subst h
      simpa [charListLe] using charListLe_total as bs
    · rcases lt_or_gt_of_ne h with hlt | hgt
      · exact Or.inl (by simp [charListLe, h, hlt])
      · exact Or.inr (by simp [charListLe, Ne.symm h, hgt])

theorem charListLe_trans : ∀ as bs cs : List Char,
    charListLe as bs = true → charListLe bs cs = true →
      charListLe as cs = true := by
  intro as
  induction as with
  | nil => intro bs cs h1 h2; rfl
  | cons a as ih =>
    intro bs cs h1 h2
    cases bs with
    | nil => simp [charListLe] at h1
    | cons b bs =>
      cases cs with
      | nil => simp [charListLe] at h2
      | cons c cs =>
        by_cases hab : a = b
        · subst hab
          simp only [charListLe, if_pos rfl] at h1
          by_cases hac : a = c
          · subst hac
            simp only [charListLe, if_pos rfl] at h2 ⊢
            exact ih bs cs h1 h2
          · simp only [charListLe, if_neg hac] at h2 ⊢
            exact h2
        · simp only [charListLe, if_neg hab] at h1
          have hab2 : a < b := of_decide_eq_true h1
          by_cases hbc : b = c
          · subst hbc
            simp only [charListLe, if_neg hab]
            exact decide_eq_true hab2
          · simp only [charListLe, if_neg hbc] at h2
            have hac2 : a < c := lt_trans hab2 (of_decide_eq_true h2)
            simp only [charListLe, if_neg (ne_of_lt hac2)]
            exact decide_eq_true hac2

theorem charListLe_antisymm : ∀ as bs : List Char,
    charListLe as bs = true → charListLe bs as = true → as = bs := by
  intro as
  induction as with
  | nil =>
    intro bs h1 h2
    cases bs with
    | nil => rfl
    | cons b bs => simp [charListLe] at h2
  | cons a as ih =>
    intro bs h1 h2
    cases bs with
    | nil => simp [charListLe] at h1
    | cons b bs =>
      by_cases hab : a = b
      · subst hab
        simp only [charListLe, if_pos rfl] at h1 h2
        rw [ih bs h1 h2]
      · simp only [charListLe, if_neg hab, if_neg (Ne.symm hab)] at h1 h2
        exact absurd (of_decide_eq_true h2) (lt_asymm (of_decide_eq_true h1))

instance : IsTotal String (fun a b => strLe a b = true) :=
  ⟨fun a b => charListLe_total a.toList b.toList⟩

instance : IsTrans String (fun a b => strLe a b = true) :=
  ⟨fun a b c => charListLe_trans a.toList b.toList c.toList⟩

instance : IsAntisymm String (fun a b => strLe a b = true) :=
  ⟨fun a b h1 h2 => String.ext (charListLe_antisymm a.toList b.toList h1 h2)⟩

/-! ## `np.array_split` lemmas -/

theorem splitBySizes_length (szs : List Nat) (l : List α) :
    (splitBySizes szs l).length = szs.length := by
  induction szs generalizing l with
  | nil => rfl
  | cons s rest ih => simp [splitBySizes, ih]

theorem arraySplit_length (l : List α) (k : Nat) :
    (arraySplit l k).length = k := by
  simp [arraySplit, splitBySizes_length, arraySplitSizes]

theorem splitBySizes_flatten (szs : List Nat) (l : List α) :
    (splitBySizes szs l).flatten = l.take szs.sum := by
  induction szs generalizing l with
  | nil => simp [splitBySizes]
  | cons s rest ih =>
    simp only [splitBySizes, List.flatten_cons, ih, List.sum_cons,
      List.take_add]

theorem sum_ite_range (k m q : Nat) :
    ((List.range k).map (fun i => if i < m then q + 1 else q)).sum =
      min m k * (q + 1) + (k - min m k) * q := by
  induction k with
  | zero => simp
  | succ n ih =>
    rw [List.range_succ, List.map_append, List.sum_append]
    simp only [List.map_cons, List.map_nil, List.sum_cons, List.sum_nil,
      ih, Nat.add_zero]
    by_cases h : n < m
    · rw [if_pos h]
      have h1 : min m (n + 1) = n + 1 := by omega
      have h2 : min m n = n := by omega
      rw [h1, h2]
      simp [Nat.succ_mul]
    · rw [if_neg h]
      have h1 : min m (n + 1) = m := by omega
      have h2 : min m n = m := by omega
      have h3 : n + 1 - m = (n - m) + 1 := by omega
      rw [h1, h2, h3, Nat.succ_mul]
      omega

theorem arraySplit_flatten (l : List α) (k : Nat) (hk : 0 < k) :
    (arraySplit l k).flatten = l := by
  unfold arraySplit arraySplitSizes
  rw [splitBySizes_flatten, sum_ite_range]
  have hmlt : l.length % k < k := Nat.mod_lt _ hk
  have hm : min (l.length % k) k = l.length % k := by omega
  rw [hm]
  have hmul : l.length % k * (l.length / k + 1) +
      (k - l.length % k) * (l.length / k) = l.length := by
    have hdm := Nat.div_add_mod l.length k
    have hle : l.length % k * (l.length / k) ≤ k * (l.length / k) :=
      Nat.mul_le_mul_right _ (le_of_lt hmlt)
    rw [Nat.mul_succ, Nat.sub_mul]
    omega
  rw [hmul, List.take_length]

/-! ## `BatchFeeder` loop lemmas -/

theorem feederLoopGo_false (k fuel bn : Nat) :
    feederLoopGo k fuel bn false = 0 := by
  cases fuel <;> rfl

theorem feederLoopGo_true (k : Nat) :
    ∀ fuel bn, fuel = k - bn → bn < k → feederLoopGo k fuel bn true = fuel := by
  intro fuel
  induction fuel with
  | zero => intro bn hf hb; omega
  | succ f ih =>
    intro bn hf hb
    show (if bn < k then 1 + feederLoopGo k f (bn + 1) (decide (bn + 1 < k))
      else 1) = f + 1
    rw [if_pos hb]
    by_cases h2 : bn + 1 < k
    · rw [decide_eq_true h2, ih (bn + 1) (by omega) h2]
      omega
    · rw [decide_eq_false h2, feederLoopGo_false]
      omega

theorem feederRun_eq (k : Nat) (hk : 1 ≤ k) :
    feederRun k = (k, FeederEnd.runtimeError) := by
  unfold feederRun loadNextBatch feederLoop
  rw [if_pos (by omega : 0 < k)]
  by_cases h2 : 1 < k
  · simp only [decide_eq_true h2]
    rw [feederLoopGo_true k (k - 1) 1 rfl h2]
    have : k - 1 + 1 = k := by omega
    rw [this]
  · have hk1 : k = 1 := by omega
    subst hk1
    rfl

/-! ## `commonIds` lemmas -/

theorem commonIds_perm_filter (dMap cMap : List (Int × String)) :
    (commonIds dMap cMap).Perm
      ((dMap.map Prod.fst).filter (fun i => (cMap.lookup i).isSome)) :=
  List.perm_insertionSort _ _

theorem commonIds_sorted_le (dMap cMap : List (Int × String)) :
    List.Sorted (fun a b : Int => a ≤ b) (commonIds dMap cMap) :=
  List.sorted_insertionSort _ _

theorem commonIds_nodup {dMap : List (Int × String)}
    (h : (dMap.map Prod.fst).Nodup) (cMap : List (Int × String)) :
    (commonIds dMap cMap).Nodup :=
  (commonIds_perm_filter dMap cMap).symm.nodup (h.filter _)

theorem mem_commonIds (dMap cMap : List (Int × String)) (i : Int) :
    i ∈ commonIds dMap cMap ↔
      i ∈ dMap.map Prod.fst ∧ (cMap.lookup i).isSome := by
  rw [(commonIds_perm_filter dMap cMap).mem_iff]
  simp [List.mem_filter]

theorem commonIds_sorted_lt {dMap : List (Int × String)}
    (h : (dMap.map Prod.fst).Nodup) (cMap : List (Int × String)) :
    List.Sorted (fun a b : Int => a < b) (commonIds dMap cMap) :=
  (commonIds_sorted_le dMap cMap).lt_of_le (commonIds_nodup h cMap)

/-- C2: for every link-table group, one CorrelatedPair is emitted per id in
the intersection of the dicom index ids and the contour index ids, each id
exactly once (the id list is strictly ascending, hence duplicate-free), in
ascending id order; ids present in only one index are not in the
intersection and so never appear. -/
theorem correlateGroup_common_ids (dBase cBase : String)
    (gd gc : String → Option Int) (dEs cEs : List Entry) :
    List.Sorted (fun a b : Int => a < b)
      (commonIds (getPathById dBase gd dEs) (getPathById cBase gc cEs)) ∧
    (∀ i : Int,
      i ∈ commonIds (getPathById dBase gd dEs) (getPathById cBase gc cEs) ↔
        i ∈ (getPathById dBase gd dEs).map Prod.fst ∧
        i ∈ (getPathById cBase gc cEs).map Prod.fst) ∧
    correlateGroupPaths dBase cBase gd gc dEs cEs =
      (commonIds (getPathById dBase gd dEs)
        (getPathById cBase gc cEs)).map
        (fun i => (((getPathById dBase gd dEs).lookup i).getD "",
                   ((getPathById cBase gc cEs).lookup i).getD "")) := by
  refine ⟨commonIds_sorted_lt (getPathById_keys_nodup ..) _, ?_, rfl⟩
  intro i
  rw [mem_commonIds, lookup_isSome_iff]

/-- C1: the batch splitting of `BatchFeeder.__init__`.  The claim says 20
pairs with `chunk_size = 8` give `ceil(20/8) = 3` batches of sizes 8, 8
and 4; the code instead calls `np.array_split(path_tups, batch_size)`,
which makes `batch_size = 8` batches of sizes 3, 3, 3, 3, 2, 2, 2, 2
(contradicting the comment on `BATCH_SIZE`, which documents it as the
number of pairs per batch). -/
theorem arraySplit_twenty_eight_eval :
    (arraySplit (List.range 20) 8).map List.length =
      [3, 3, 3, 3, 2, 2, 2, 2] ∧
    (arraySplit (List.range 20) 8).length = 8 ∧
    (arraySplit (List.range 20) 8).length ≠ 3 := by decide

/-- C3: over any pair list and any positive `batch_size`, the feeder makes
`batch_size` chunks that together cover the whole list, its generator
yields exactly one batch per chunk — but after the last yield the
`raise StopIteration` in the generator body becomes a `RuntimeError`
under Python 3.7+ (PEP 479), so iteration does not terminate normally. -/
theorem batchFeeder_one_batch_per_chunk_runtimeError (l : List α)
    (bs : Nat) (hbs : 0 < bs) :
    (arraySplit l bs).length = bs ∧
    (arraySplit l bs).flatten = l ∧
    feederRun ((arraySplit l bs).length) =
      ((arraySplit l bs).length, FeederEnd.runtimeError) := by
  refine ⟨arraySplit_length l bs, arraySplit_flatten l bs hbs, ?_⟩
  rw [arraySplit_length]
  exact feederRun_eq bs hbs

/-- Witness for C3 at 20 pairs and `batch_size = 8`. -/
theorem batchFeeder_one_batch_per_chunk_runtimeError_witness :
    0 < 8 ∧
    ((arraySplit (List.range 20) 8).length = 8 ∧
     (arraySplit (List.range 20) 8).flatten = List.range 20 ∧
     feederRun ((arraySplit (List.range 20) 8).length) =
       ((arraySplit (List.range 20) 8).length, FeederEnd.runtimeError)) :=
  ⟨by decide,
    batchFeeder_one_batch_per_chunk_runtimeError (List.range 20) 8
      (by decide)⟩

/-! ## Link-table dict lemmas -/

theorem dictInsert_keys (m : List (String × String)) (k v : String) :
    (dictInsert m k v).map Prod.fst =
      if (m.lookup k).isSome then m.map Prod.fst
      else m.map Prod.fst ++ [k] := by
  unfold dictInsert
  by_cases h : (m.lookup k).isSome
  · rw [if_pos h, if_pos h, List.map_map]
    apply List.map_congr_left
    intro p _
    by_cases hp : p.1 = k
    · simp [hp]
    · simp [hp]
  · rw [if_neg h, if_neg h]
    simp

theorem getCidByDid_keys_nodup (rows : List (String × String)) :
    ((getCidByDid rows).map Prod.fst).Nodup := by
  unfold getCidByDid
  have main : ∀ rs (m : List (String × String)),
      (m.map Prod.fst).Nodup →
      ((List.foldl (fun m (r : String × String) => dictInsert m r.1 r.2)
        m rs).map Prod.fst).Nodup := by
    intro rs
    induction rs with
    | nil => intro m h; simpa using h
    | cons r rest ih =>
      intro m h
      rw [List.foldl_cons]
      apply ih
      rw [dictInsert_keys]
      by_cases hl : (m.lookup r.1).isSome
      · rwa [if_pos hl]
      · rw [if_neg hl]
        have : r.1 ∉ m.map Prod.fst := by
          rw [← lookup_isSome_iff]
          simpa using hl
        simp [List.nodup_append, h, this]
  exact main rows [] (by simp)

theorem sortedDIds_sorted (rows : List (String × String)) :
    List.Sorted (fun a b => strLe a b = true) (sortedDIds rows) :=
  List.sorted_insertionSort _ _

theorem sortedDIds_nodup (rows : List (String × String)) :
    (sortedDIds rows).Nodup :=
  (List.perm_insertionSort _ _).symm.nodup (getCidByDid_keys_nodup rows)

theorem mem_sortedDIds {rows : List (String × String)} {dId : String}
    (h : ((getCidByDid rows).lookup dId).isSome) : dId ∈ sortedDIds rows := by
  unfold sortedDIds
  rw [(List.perm_insertionSort _ _).mem_iff]
  exact (lookup_isSome_iff _ _).1 h

/-! ## The group fold -/

theorem foldl_correlate_ok (fs : FS) (dd cd : String)
    (cid : List (String × String)) :
    ∀ (ds : List String) (acc l : List (String × String)),
      ds.foldlM (correlateStep fs dd cd cid) acc = .ok l →
      l = acc ++ ds.flatMap
        (fun d => groupPairs fs dd cd d ((cid.lookup d).getD "")) := by
  intro ds
  induction ds with
  | nil =>
    intro acc l h
    simp only [List.foldlM_nil, pure] at h
    cases h
    simp
  | cons d rest ih =>
    intro acc l h
    rw [List.foldlM_cons] at h
    cases hg : correlateGroup fs dd cd d ((cid.lookup d).getD "") with
    | error e =>
      have hstep : correlateStep fs dd cd cid acc d = .error e := by
        unfold correlateStep
        rw [hg]
      rw [hstep] at h
      exact absurd h (by simp [Bind.bind, Except.bind])
    | ok ps =>
      have hstep : correlateStep fs dd cd cid acc d = .ok (acc ++ ps) := by
        unfold correlateStep
        rw [hg]
      rw [hstep] at h
      have h2 : rest.foldlM (correlateStep fs dd cd cid) (acc ++ ps) =
          .ok l := h
      rw [ih (acc ++ ps) l h2]
      have hp : groupPairs fs dd cd d ((cid.lookup d).getD "") = ps := by
        unfold groupPairs
        rw [hg]
      rw [List.flatMap_cons, hp, List.append_assoc]

theorem foldl_correlate_error (fs : FS) (dd cd : String)
    (cid : List (String × String)) :
    ∀ (ds : List String) (acc : List (String × String)) (d : String),
      d ∈ ds →
      correlateGroup fs dd cd d ((cid.lookup d).getD "") = .error () →
      ds.foldlM (correlateStep fs dd cd cid) acc = .error () := by
  intro ds
  induction ds with
  | nil => intro acc d h; simp at h
  | cons d0 rest ih =>
    intro acc d hmem herr
    rw [List.foldlM_cons]
    rcases List.mem_cons.1 hmem with rfl | hmem2
    · have hstep : correlateStep fs dd cd cid acc d = .error () := by
        unfold correlateStep
        rw [herr]
      rw [hstep]
      rfl
    · cases hg : correlateGroup fs dd cd d0 ((cid.lookup d0).getD "") with
      | error e =>
        have hstep : correlateStep fs dd cd cid acc d0 = .error e := by
          unfold correlateStep
          rw [hg]
        rw [hstep]
        cases e
        rfl
      | ok ps =>
        have hstep : correlateStep fs dd cd cid acc d0 = .ok (acc ++ ps) := by
          unfold correlateStep
          rw [hg]
        rw [hstep]
        exact ih (acc ++ ps) d hmem2 herr

theorem groupPairs_eq_map (fs : FS) (dd cd dId cId : String) :
    groupPairs fs dd cd dId cId =
      (groupIds fs dd cd dId cId).map
        (fun i => (((groupDMap fs dd dId).lookup i).getD "",
                   ((groupCMap fs cd cId).lookup i).getD "")) := by
  cases hd : fs (pathJoin dd dId) with
  | none =>
    cases hc : fs (pathJoin (pathJoin cd cId) "i-contours") with
    | none =>
      simp [groupPairs, correlateGroup, groupIds, groupDMap, groupCMap,
        hd, hc, commonIds]
    | some cEs =>
      simp [groupPairs, correlateGroup, groupIds, groupDMap, groupCMap,
        hd, hc, commonIds]
  | some dEs =>
    cases hc : fs (pathJoin (pathJoin cd cId) "i-contours") with
    | none =>
      simp [groupPairs, correlateGroup, groupIds, groupDMap, groupCMap,
        hd, hc, commonIds, List.lookup]
    | some cEs =>
      simp [groupPairs, correlateGroup, groupIds, groupDMap, groupCMap,
        hd, hc, correlateGroupPaths]

/-- C4: whenever the non-shuffled correlation succeeds, its output is the
concatenation, over the dicom group ids in ascending lexical order (a
strictly sorted, duplicate-free list), of the per-group pair lists, and
each per-group list maps over that group's strictly ascending common slice
ids — the canonical non-shuffled order. -/
theorem correlatePairs_canonical_order (fs : FS)
    (rows : List (String × String)) (dd cd : String)
    (l : List (String × String))
    (h : correlatePairs fs rows dd cd = .ok l) :
    l = (sortedDIds rows).flatMap
        (fun d => groupPairs fs dd cd d
          (((getCidByDid rows).lookup d).getD "")) ∧
    List.Sorted (fun a b => strLe a b = true) (sortedDIds rows) ∧
    (sortedDIds rows).Nodup ∧
    ∀ dId cId : String,
      List.Sorted (fun a b : Int => a < b) (groupIds fs dd cd dId cId) ∧
      groupPairs fs dd cd dId cId =
        (groupIds fs dd cd dId cId).map
          (fun i => (((groupDMap fs dd dId).lookup i).getD "",
                     ((groupCMap fs cd cId).lookup i).getD "")) := by
  have h0 : l = (sortedDIds rows).flatMap
      (fun d => groupPairs fs dd cd d
        (((getCidByDid rows).lookup d).getD "")) := by
    simpa using foldl_correlate_ok fs dd cd (getCidByDid rows)
      (sortedDIds rows) [] l h
  refine ⟨h0, sortedDIds_sorted rows, sortedDIds_nodup rows, ?_⟩
  intro dId cId
  refine ⟨?_, groupPairs_eq_map fs dd cd dId cId⟩
  apply commonIds_sorted_lt
  unfold groupDMap
  cases fs (pathJoin dd dId) with
  | none => simp
  | some es => exact getPathById_keys_nodup ..

/-- Witness for C4 on the concrete state `exFS`. -/
theorem correlatePairs_canonical_order_witness :
    correlatePairs exFS exRows "d" "c" =
      .ok [("d/P1/2.dcm", "c/C1/i-contours/IM-0001-0002-icontour.txt"),
           ("d/P1/3.dcm", "c/C1/i-contours/IM-0001-0003-icontour.txt")] ∧
    ([("d/P1/2.dcm", "c/C1/i-contours/IM-0001-0002-icontour.txt"),
      ("d/P1/3.dcm", "c/C1/i-contours/IM-0001-0003-icontour.txt")] =
        (sortedDIds exRows).flatMap
          (fun d => groupPairs exFS "d" "c" d
            (((getCidByDid exRows).lookup d).getD "")) ∧
      List.Sorted (fun a b => strLe a b = true) (sortedDIds exRows) ∧
      (sortedDIds exRows).Nodup ∧
      ∀ dId cId : String,
        List.Sorted (fun a b : Int => a < b)
          (groupIds exFS "d" "c" dId cId) ∧
        groupPairs exFS "d" "c" dId cId =
          (groupIds exFS "d" "c" dId cId).map
            (fun i => (((groupDMap exFS "d" dId).lookup i).getD "",
                       ((groupCMap exFS "c" cId).lookup i).getD ""))) :=
  ⟨rfl, correlatePairs_canonical_order exFS exRows "d" "c" _ rfl⟩

/-- C6: a link-table group whose dicom directory or contour directory is
missing on disk makes the whole correlation pass fail (the
`FileNotFoundError` of `listdir` propagates out of
`_get_dicom_contour_path_tups`), so no pair list is returned at all. -/
theorem correlatePairs_missing_dir_fatal (fs : FS)
    (rows : List (String × String)) (dd cd dId cId : String)
    (hlink : (getCidByDid rows).lookup dId = some cId)
    (hmiss : fs (pathJoin dd dId) = none ∨
      fs (pathJoin (pathJoin cd cId) "i-contours") = none) :
    correlatePairs fs rows dd cd = .error () := by
  apply foldl_correlate_error fs dd cd (getCidByDid rows) (sortedDIds rows)
    [] dId (mem_sortedDIds (by simp [hlink]))
  rw [hlink]
  show correlateGroup fs dd cd dId cId = .error ()
  unfold correlateGroup
  dsimp only
  rcases hmiss with h | h
  · rw [h]
  · rw [h]
    cases fs (pathJoin dd dId) <;> rfl

/-- Witness for C6: the link table names `P1` but no directory exists. -/
theorem correlatePairs_missing_dir_fatal_witness :
    (getCidByDid exRows).lookup "P1" = some "C1" ∧
    correlatePairs (fun _ => none) exRows "d" "c" = .error () :=
  ⟨rfl, correlatePairs_missing_dir_fatal (fun _ => none) exRows "d" "c"
    "P1" "C1" rfl (Or.inl rfl)⟩

/-! ## Per-entry error handling -/

theorem mem_parsedFiles (g : String → Option Int) (es : List Entry)
    {i : Int} {n : String} :
    (i, n) ∈ parsedFiles g es ↔
      ∃ e, e ∈ es ∧ e.isfile = true ∧ g e.name = some i ∧ n = e.name := by
  unfold parsedFiles
  constructor
  · intro h
    obtain ⟨e, he, hv⟩ := List.mem_filterMap.1 h
    by_cases hf : e.isfile
    · simp only [hf, if_true] at hv
      cases hge : g e.name with
      | none => simp [hge] at hv
      | some z =>
        simp [hge] at hv
        exact ⟨e, he, hf, hv.1 ▸ hge, hv.2.symm⟩
    · simp [hf] at hv
  · rintro ⟨e, he, hf, hg, rfl⟩
    exact List.mem_filterMap.2 ⟨e, he, by simp [hf, hg]⟩

/-- C7: a directory with two or more entries parsing to the same id keeps
only the first-seen entry for it: the index has at most one path per id
(duplicate-free keys), the path recorded for the id is the join of the
first parsable file with that id (the first occurrence in `parsedFiles`),
and the id is mapped (to exactly one path); no exception is raised — the
whole computation is total. -/
theorem getPathById_duplicate_first_seen (base : String)
    (g : String → Option Int) (es : List Entry) (i : Int)
    (hdup : 2 ≤
      ((parsedFiles g es).filter (fun p => decide (p.1 = i))).length) :
    ((getPathById base g es).map Prod.fst).Nodup ∧
    (getPathById base g es).lookup i =
      ((parsedFiles g es).lookup i).map (pathJoin base) ∧
    ∃ p, (getPathById base g es).lookup i = some p := by
  refine ⟨getPathById_keys_nodup .., getPathById_lookup .., ?_⟩
  have hne : (parsedFiles g es).filter (fun p => decide (p.1 = i)) ≠ [] := by
    intro hnil
    rw [hnil] at hdup
    simp at hdup
  obtain ⟨pr, hpr⟩ := List.exists_mem_of_ne_nil _ hne
  have h1 : pr ∈ parsedFiles g es := (List.mem_filter.1 hpr).1
  have h2 : pr.1 = i := of_decide_eq_true (List.mem_filter.1 hpr).2
  have hk : i ∈ (parsedFiles g es).map Prod.fst := List.mem_map.2 ⟨pr, h1, h2⟩
  obtain ⟨n, hn⟩ :=
    Option.isSome_iff_exists.1 ((lookup_isSome_iff (parsedFiles g es) i).2 hk)
  refine ⟨pathJoin base n, ?_⟩
  rw [getPathById_lookup, hn]
  rfl

/-- Witness for C7: two files both parsing to slice id 2. -/
theorem getPathById_duplicate_first_seen_witness :
    2 ≤ ((parsedFiles dicomGetId [⟨"2.x", true⟩, ⟨"2.y", true⟩]).filter
      (fun p => decide (p.1 = 2))).length ∧
    (((getPathById "d" dicomGetId
        [⟨"2.x", true⟩, ⟨"2.y", true⟩]).map Prod.fst).Nodup ∧
     (getPathById "d" dicomGetId [⟨"2.x", true⟩, ⟨"2.y", true⟩]).lookup 2 =
       ((parsedFiles dicomGetId
         [⟨"2.x", true⟩, ⟨"2.y", true⟩]).lookup 2).map (pathJoin "d") ∧
     ∃ p, (getPathById "d" dicomGetId
       [⟨"2.x", true⟩, ⟨"2.y", true⟩]).lookup 2 = some p) :=
  ⟨by decide, getPathById_duplicate_first_seen "d" dicomGetId
    [⟨"2.x", true⟩, ⟨"2.y", true⟩] 2 (by decide)⟩

/-- Splitting a character list at a separator character absent from the
part before it is unambiguous. -/
theorem append_slash_inj :
    ∀ (u v r s : List Char), (∀ c ∈ u, c ≠ '/') → (∀ c ∈ v, c ≠ '/') →
      u ++ '/' :: r = v ++ '/' :: s → u = v ∧ r = s := by
  intro u
  induction u with
  | nil =>
    intro v r s _ hv h
    cases v with
    | nil =>
      simp at h
      exact ⟨rfl, h⟩
    | cons d v2 =>
      simp at h
      exact absurd h.1.symm (hv d (by simp))
  | cons c u2 ih =>
    intro v r s hu hv h
    cases v with
    | nil =>
      simp at h
      exact absurd h.1 (hu c (by simp))
    | cons d v2 =>
      simp at h
      obtain ⟨rfl, h2⟩ := h
      obtain ⟨h3, h4⟩ := ih v2 r s (fun x hx => hu x (by simp [hx]))
        (fun x hx => hv x (by simp [hx])) h2
      exact ⟨by rw [h3], h4⟩

/-- When the joined filenames contain no path separator (as `listdir` names
never do), equal joined paths force equal directories and equal names. -/
theorem pathJoin_inj_of_no_slash {a b x y : String}
    (hx : ∀ c ∈ x.data, c ≠ '/') (hy : ∀ c ∈ y.data, c ≠ '/')
    (h : pathJoin a x = pathJoin b y) : a = b ∧ x = y := by
  unfold pathJoin at h
  have h0 := congrArg String.data h
  simp only [String.data_append] at h0
  have hd : a.data ++ '/' :: x.data = b.data ++ '/' :: y.data := by
    simpa [List.append_assoc] using h0
  have hrev : x.data.reverse ++ '/' :: a.data.reverse =
      y.data.reverse ++ '/' :: b.data.reverse := by
    have := congrArg List.reverse hd
    simpa [List.reverse_append] using this
  obtain ⟨h1, h2⟩ := append_slash_inj _ _ _ _
    (fun c hc => hx c (List.mem_reverse.1 hc))
    (fun c hc => hy c (List.mem_reverse.1 hc)) hrev
  constructor
  · apply String.ext
    have := congrArg List.reverse h2
    simpa using this
  · apply String.ext
    have := congrArg List.reverse h1
    simpa using this

/-- A name whose id fails to parse is never recorded: its joined path is
not a value of the index. -/
theorem unparsable_not_value (base : String) (g : String → Option Int)
    (es : List Entry) (nm : String) (hbad : g nm = none) :
    pathJoin base nm ∉ (getPathById base g es).map Prod.snd := by
  intro hmem
  obtain ⟨⟨i, p⟩, hm, hp⟩ := List.mem_map.1 hmem
  obtain ⟨e2, he2, hf2, hg2, hpe⟩ := getPathById_mem base g es hm
  have hne : e2.name = nm := pathJoin_right_inj (by rw [← hpe]; exact hp)
  rw [hne, hbad] at hg2
  exact Option.noConfusion hg2

/-- A path rooted in a different directory is not a value of an index over
slash-free names. -/
theorem value_not_join_of_ne_base (base1 base2 : String)
    (g : String → Option Int) (es : List Entry) (nm : String)
    (hneq : base1 ≠ base2)
    (hnames : ∀ e2 ∈ es, ∀ c ∈ e2.name.data, c ≠ '/')
    (hnm : ∀ c ∈ nm.data, c ≠ '/') :
    pathJoin base1 nm ∉ (getPathById base2 g es).map Prod.snd := by
  intro hmem
  obtain ⟨⟨i, p⟩, hm, hp⟩ := List.mem_map.1 hmem
  obtain ⟨e2, he2, hf2, hg2, hpe⟩ := getPathById_mem base2 g es hm
  have heq : pathJoin base1 nm = pathJoin base2 e2.name := by
    rw [← hpe]
    exact hp.symm
  obtain ⟨hb, -⟩ := pathJoin_inj_of_no_slash hnm (hnames e2 he2) heq
  exact hneq hb

/-- Both components of every emitted pair are values of the respective
index: the image path comes from the dicom index, the annotation path from
the contour index. -/
theorem correlateGroupPaths_component_mem (dBase cBase : String)
    (gd gc : String → Option Int) (dEs cEs : List Entry) :
    ∀ pr ∈ correlateGroupPaths dBase cBase gd gc dEs cEs,
      pr.1 ∈ (getPathById dBase gd dEs).map Prod.snd ∧
      pr.2 ∈ (getPathById cBase gc cEs).map Prod.snd := by
  intro pr hpr
  have hpr2 : pr ∈ (commonIds (getPathById dBase gd dEs)
      (getPathById cBase gc cEs)).map
      (fun i => (((getPathById dBase gd dEs).lookup i).getD "",
                 ((getPathById cBase gc cEs).lookup i).getD "")) := hpr
  obtain ⟨i, hi, hpre⟩ := List.mem_map.1 hpr2
  obtain ⟨hkey, hcsome⟩ := (mem_commonIds _ _ i).1 hi
  obtain ⟨v1, hv1⟩ :=
    Option.isSome_iff_exists.1 ((lookup_isSome_iff _ _).2 hkey)
  obtain ⟨v2, hv2⟩ := Option.isSome_iff_exists.1 hcsome
  constructor
  · have hp1 : pr.1 = v1 := by
      rw [← hpre]
      simp [hv1]
    rw [hp1]
    exact List.mem_map.2 ⟨(i, v1), lookup_eq_some_mem hv1, rfl⟩
  · have hp2 : pr.2 = v2 := by
      rw [← hpre]
      simp [hv2]
    rw [hp2]
    exact List.mem_map.2 ⟨(i, v2), lookup_eq_some_mem hv2, rfl⟩

/-- C8: a directory entry of either indexed directory whose filename id
does not parse under that directory's extraction rule is skipped, and
never fatally: the indexer is a total function.  The skipped entry's path
is not a value of its index, and it appears in no emitted CorrelatedPair
at all — neither as the image path nor as the annotation path.  The
hypotheses record two structural facts of the program: the image group
directory and the annotation group directory are distinct, and `listdir`
names never contain a path separator. -/
theorem getPathById_unparsable_skipped (dBase cBase : String)
    (gd gc : String → Option Int) (dEs cEs : List Entry)
    (hbases : dBase ≠ cBase)
    (hdnames : ∀ e ∈ dEs, ∀ c ∈ e.name.data, c ≠ '/')
    (hcnames : ∀ e ∈ cEs, ∀ c ∈ e.name.data, c ≠ '/') :
    (∀ e ∈ dEs, gd e.name = none →
      pathJoin dBase e.name ∉ (getPathById dBase gd dEs).map Prod.snd ∧
      ∀ pr ∈ correlateGroupPaths dBase cBase gd gc dEs cEs,
        pr.1 ≠ pathJoin dBase e.name ∧ pr.2 ≠ pathJoin dBase e.name) ∧
    (∀ e ∈ cEs, gc e.name = none →
      pathJoin cBase e.name ∉ (getPathById cBase gc cEs).map Prod.snd ∧
      ∀ pr ∈ correlateGroupPaths dBase cBase gd gc dEs cEs,
        pr.1 ≠ pathJoin cBase e.name ∧ pr.2 ≠ pathJoin cBase e.name) := by
  constructor
  · intro e he hbad
    refine ⟨unparsable_not_value dBase gd dEs e.name hbad, ?_⟩
    intro pr hpr
    obtain ⟨hm1, hm2⟩ :=
      correlateGroupPaths_component_mem dBase cBase gd gc dEs cEs pr hpr
    constructor
    · intro heq
      exact unparsable_not_value dBase gd dEs e.name hbad (heq ▸ hm1)
    · intro heq
      exact value_not_join_of_ne_base dBase cBase gc cEs e.name hbases
        hcnames (hdnames e he) (heq ▸ hm2)
  · intro e he hbad
    refine ⟨unparsable_not_value cBase gc cEs e.name hbad, ?_⟩
    intro pr hpr
    obtain ⟨hm1, hm2⟩ :=
      correlateGroupPaths_component_mem dBase cBase gd gc dEs cEs pr hpr
    constructor
    · intro heq
      exact value_not_join_of_ne_base cBase dBase gd dEs e.name
        (Ne.symm hbases) hdnames (hcnames e he) (heq ▸ hm1)
    · intro heq
      exact unparsable_not_value cBase gc cEs e.name hbad (heq ▸ hm2)

/-- Witness for C8 on the concrete group of `exFS`: `junk.txt` has no
parsable id under the dicom rule, and a hypothetical `nonsense.dcm` in the
contour directory would have none under the contour rule. -/
theorem getPathById_unparsable_skipped_witness :
    ("d/P1" : String) ≠ "c/C1/i-contours" ∧
    ((∀ e ∈ ([⟨"3.dcm", true⟩, ⟨"1.dcm", true⟩, ⟨"2.dcm", true⟩,
        ⟨"junk.txt", true⟩] : List Entry), dicomGetId e.name = none →
      pathJoin "d/P1" e.name ∉
        (getPathById "d/P1" dicomGetId
          [⟨"3.dcm", true⟩, ⟨"1.dcm", true⟩, ⟨"2.dcm", true⟩,
           ⟨"junk.txt", true⟩]).map Prod.snd ∧
      ∀ pr ∈ correlateGroupPaths "d/P1" "c/C1/i-contours" dicomGetId
          contourGetId
          [⟨"3.dcm", true⟩, ⟨"1.dcm", true⟩, ⟨"2.dcm", true⟩,
           ⟨"junk.txt", true⟩]
          [⟨"IM-0001-0003-icontour.txt", true⟩,
           ⟨"IM-0001-0002-icontour.txt", true⟩,
           ⟨"nonsense.dcm", true⟩],
        pr.1 ≠ pathJoin "d/P1" e.name ∧
        pr.2 ≠ pathJoin "d/P1" e.name) ∧
     (∀ e ∈ ([⟨"IM-0001-0003-icontour.txt", true⟩,
        ⟨"IM-0001-0002-icontour.txt", true⟩,
        ⟨"nonsense.dcm", true⟩] : List Entry), contourGetId e.name = none →
      pathJoin "c/C1/i-contours" e.name ∉
        (getPathById "c/C1/i-contours" contourGetId
          [⟨"IM-0001-0003-icontour.txt", true⟩,
           ⟨"IM-0001-0002-icontour.txt", true⟩,
           ⟨"nonsense.dcm", true⟩]).map Prod.snd ∧
      ∀ pr ∈ correlateGroupPaths "d/P1" "c/C1/i-contours" dicomGetId
          contourGetId
          [⟨"3.dcm", true⟩, ⟨"1.dcm", true⟩, ⟨"2.dcm", true⟩,
           ⟨"junk.txt", true⟩]
          [⟨"IM-0001-0003-icontour.txt", true⟩,
           ⟨"IM-0001-0002-icontour.txt", true⟩,
           ⟨"nonsense.dcm", true⟩],
        pr.1 ≠ pathJoin "c/C1/i-contours" e.name ∧
        pr.2 ≠ pathJoin "c/C1/i-contours" e.name)) :=
  ⟨by decide, getPathById_unparsable_skipped "d/P1" "c/C1/i-contours"
    dicomGetId contourGetId
    [⟨"3.dcm", true⟩, ⟨"1.dcm", true⟩, ⟨"2.dcm", true⟩,
     ⟨"junk.txt", true⟩]
    [⟨"IM-0001-0003-icontour.txt", true⟩,
     ⟨"IM-0001-0002-icontour.txt", true⟩,
     ⟨"nonsense.dcm", true⟩]
    (by decide) (by decide) (by decide)⟩

/-- C10: every entry (id, path) of an index built by `_get_path_by_id`
comes from a regular-file entry of the indexed directory whose filename
parses to exactly that id, with path the join of the directory and that
filename — no index entry comes from a parse failure, a non-file, or a
mismatched filename. -/
theorem getPathById_entry_invariant (base : String)
    (g : String → Option Int) (es : List Entry) (i : Int) (p : String)
    (h : (i, p) ∈ getPathById base g es) :
    ∃ e, e ∈ es ∧ e.isfile = true ∧ g e.name = some i ∧
      p = pathJoin base e.name :=
  getPathById_mem base g es h

/-- Witness for C10. -/
theorem getPathById_entry_invariant_witness :
    (2, "d/2.x") ∈ getPathById "d" dicomGetId [⟨"2.x", true⟩] ∧
    ∃ e, e ∈ ([⟨"2.x", true⟩] : List Entry) ∧ e.isfile = true ∧
      dicomGetId e.name = some 2 ∧ "d/2.x" = pathJoin "d" e.name :=
  ⟨by decide, getPathById_entry_invariant "d" dicomGetId [⟨"2.x", true⟩]
    2 "d/2.x" (by decide)⟩

/-! ## Enumeration-order invariance (C5) -/

theorem optPerm_refl (o : Option (List Entry)) : OptPerm o o := by
  cases o
  · trivial
  · exact List.Perm.refl _

theorem getPathById_lookup_eq_of_perm (base : String)
    (g : String → Option Int) {es1 es2 : List Entry} (hperm : es1.Perm es2)
    (hnd : ((parsedFiles g es1).map Prod.fst).Nodup) (i : Int) :
    (getPathById base g es1).lookup i = (getPathById base g es2).lookup i := by
  rw [getPathById_lookup, getPathById_lookup]
  exact congrArg (Option.map (pathJoin base))
    (lookup_eq_of_perm_nodup (hperm.filterMap _) hnd i)

theorem getPathById_keys_perm (base : String) (g : String → Option Int)
    {es1 es2 : List Entry} (hperm : es1.Perm es2)
    (hnd : ((parsedFiles g es1).map Prod.fst).Nodup) :
    ((getPathById base g es1).map Prod.fst).Perm
      ((getPathById base g es2).map Prod.fst) := by
  rw [List.perm_ext_iff_of_nodup (getPathById_keys_nodup ..)
    (getPathById_keys_nodup ..)]
  intro i
  rw [← lookup_isSome_iff, ← lookup_isSome_iff,
    getPathById_lookup_eq_of_perm base g hperm hnd i]

theorem commonIds_congr {dM1 dM2 cM1 cM2 : List (Int × String)}
    (hkperm : (dM1.map Prod.fst).Perm (dM2.map Prod.fst))
    (hcl : ∀ i, cM1.lookup i = cM2.lookup i) :
    commonIds dM1 cM1 = commonIds dM2 cM2 := by
  apply List.eq_of_perm_of_sorted ?_ (List.sorted_insertionSort ..)
    (List.sorted_insertionSort ..)
  have hfil : ((dM1.map Prod.fst).filter
      (fun i => (cM1.lookup i).isSome)).Perm
      ((dM2.map Prod.fst).filter (fun i => (cM2.lookup i).isSome)) := by
    have h1 : (dM1.map Prod.fst).filter (fun i => (cM1.lookup i).isSome) =
        (dM1.map Prod.fst).filter (fun i => (cM2.lookup i).isSome) :=
      List.filter_congr (fun x _ => by rw [hcl x])
    rw [h1]
    exact hkperm.filter _
  exact ((List.perm_insertionSort _ _).trans hfil).trans
    (List.perm_insertionSort _ _).symm

theorem correlateGroupPaths_congr (dB cB : String)
    (gd gc : String → Option Int) {dEs1 dEs2 cEs1 cEs2 : List Entry}
    (hdp : dEs1.Perm dEs2) (hcp : cEs1.Perm cEs2)
    (hdnd : ((parsedFiles gd dEs1).map Prod.fst).Nodup)
    (hcnd : ((parsedFiles gc cEs1).map Prod.fst).Nodup) :
    correlateGroupPaths dB cB gd gc dEs1 cEs1 =
      correlateGroupPaths dB cB gd gc dEs2 cEs2 := by
  have hdl := getPathById_lookup_eq_of_perm dB gd hdp hdnd
  have hcl := getPathById_lookup_eq_of_perm cB gc hcp hcnd
  have hids : commonIds (getPathById dB gd dEs1) (getPathById cB gc cEs1) =
      commonIds (getPathById dB gd dEs2) (getPathById cB gc cEs2) :=
    commonIds_congr (getPathById_keys_perm dB gd hdp hdnd) hcl
  show (commonIds (getPathById dB gd dEs1)
      (getPathById cB gc cEs1)).map
      (fun i => (((getPathById dB gd dEs1).lookup i).getD "",
                 ((getPathById cB gc cEs1).lookup i).getD "")) =
    (commonIds (getPathById dB gd dEs2) (getPathById cB gc cEs2)).map
      (fun i => (((getPathById dB gd dEs2).lookup i).getD "",
                 ((getPathById cB gc cEs2).lookup i).getD ""))
  rw [hids]
  apply List.map_congr_left
  intro i _
  rw [hdl i, hcl i]

theorem correlateGroup_congr (fs1 fs2 : FS) (dd cd dId cId : String)
    (hperm : ∀ p, OptPerm (fs1 p) (fs2 p))
    (hnd : ∀ p es, fs1 p = some es →
      ((parsedFiles dicomGetId es).map Prod.fst).Nodup ∧
      ((parsedFiles contourGetId es).map Prod.fst).Nodup) :
    correlateGroup fs1 dd cd dId cId = correlateGroup fs2 dd cd dId cId := by
  unfold correlateGroup
  dsimp only
  have hd := hperm (pathJoin dd dId)
  have hc := hperm (pathJoin (pathJoin cd cId) "i-contours")
  cases h1 : fs1 (pathJoin dd dId) with
  | none =>
    rw [h1] at hd
    cases h2 : fs2 (pathJoin dd dId) with
    | none => rfl
    | some l2 =>
      rw [h2] at hd
      exact hd.elim
  | some dEs1 =>
    rw [h1] at hd
    cases h2 : fs2 (pathJoin dd dId) with
    | none =>
      rw [h2] at hd
      exact hd.elim
    | some dEs2 =>
      rw [h2] at hd
      have hdp : dEs1.Perm dEs2 := hd
      cases h1c : fs1 (pathJoin (pathJoin cd cId) "i-contours") with
      | none =>
        rw [h1c] at hc
        cases h2c : fs2 (pathJoin (pathJoin cd cId) "i-contours") with
        | none => rfl
        | some m2 =>
          rw [h2c] at hc
          exact hc.elim
      | some cEs1 =>
        rw [h1c] at hc
        cases h2c : fs2 (pathJoin (pathJoin cd cId) "i-contours") with
        | none =>
          rw [h2c] at hc
          exact hc.elim
        | some cEs2 =>
          rw [h2c] at hc
          have hcp : cEs1.Perm cEs2 := hc
          exact congrArg Except.ok (correlateGroupPaths_congr _ _ _ _ hdp hcp
            (hnd _ _ h1).1 (hnd _ _ h1c).2)

theorem correlatePairs_congr_aux (fs1 fs2 : FS) (dd cd : String)
    (cid : List (String × String))
    (hstep : ∀ acc d, correlateStep fs1 dd cd cid acc d =
      correlateStep fs2 dd cd cid acc d) :
    ∀ (ds : List String) (acc : List (String × String)),
      ds.foldlM (correlateStep fs1 dd cd cid) acc =
        ds.foldlM (correlateStep fs2 dd cd cid) acc := by
  intro ds
  induction ds with
  | nil => intro acc; rfl
  | cons d rest ih =>
    intro acc
    rw [List.foldlM_cons, List.foldlM_cons, hstep acc d]
    cases hX : correlateStep fs2 dd cd cid acc d with
    | error e => rfl
    | ok acc2 => exact ih acc2

/-- C5 (amended): the non-shuffled output does not depend on the directory
enumeration order, provided no indexed directory holds two parsable
regular files with the same parsed id — two on-disk states whose every
directory enumerates the same entries (in any orders) correlate to the
same pair list. -/
theorem correlatePairs_enum_order_invariant (fs1 fs2 : FS)
    (rows : List (String × String)) (dd cd : String)
    (hperm : ∀ p, OptPerm (fs1 p) (fs2 p))
    (hnd : ∀ p es, fs1 p = some es →
      ((parsedFiles dicomGetId es).map Prod.fst).Nodup ∧
      ((parsedFiles contourGetId es).map Prod.fst).Nodup) :
    correlatePairs fs1 rows dd cd = correlatePairs fs2 rows dd cd := by
  unfold correlatePairs
  apply correlatePairs_congr_aux
  intro acc d
  unfold correlateStep
  rw [correlateGroup_congr fs1 fs2 dd cd d _ hperm hnd]

/-- C5 counterexample: `exFSdupA` and `exFSdupB` list the same on-disk
entries (the dicom directory holds `2.x` and `2.y`, both parsing to id 2),
only in different enumeration orders, yet correlation returns different
pair lists — so the output is not independent of enumeration order as the
claim states. -/
theorem correlatePairs_enum_order_counterexample :
    ((exFSdupA "d/P1").getD []).Perm ((exFSdupB "d/P1").getD []) ∧
    ((exFSdupA "c/C1/i-contours").getD []).Perm
      ((exFSdupB "c/C1/i-contours").getD []) ∧
    correlatePairs exFSdupA exRows "d" "c" =
      .ok [("d/P1/2.x", "c/C1/i-contours/a-b-2-c")] ∧
    correlatePairs exFSdupB exRows "d" "c" =
      .ok [("d/P1/2.y", "c/C1/i-contours/a-b-2-c")] ∧
    correlatePairs exFSdupA exRows "d" "c" ≠
      correlatePairs exFSdupB exRows "d" "c" := by
  refine ⟨by decide, by decide, rfl, rfl, ?_⟩
  intro h
  have h2 : ([("d/P1/2.x", "c/C1/i-contours/a-b-2-c")] :
      List (String × String)) =
      [("d/P1/2.y", "c/C1/i-contours/a-b-2-c")] := Except.ok.inj h
  exact absurd h2 (by decide)

/-- Witness for the amended C5: `exFS` and `exFSw` enumerate the same
entries in different orders and correlate identically. -/
theorem correlatePairs_enum_order_invariant_witness :
    correlatePairs exFS exRows "d" "c" = correlatePairs exFSw exRows "d" "c" :=
  correlatePairs_enum_order_invariant exFS exFSw exRows "d" "c"
    (fun p => by
      by_cases h1 : p = "d/P1"
      · have e1 : exFS p = some [⟨"3.dcm", true⟩, ⟨"1.dcm", true⟩,
            ⟨"2.dcm", true⟩, ⟨"junk.txt", true⟩] := by rw [h1]; rfl
        have e2 : exFSw p = some [⟨"junk.txt", true⟩, ⟨"2.dcm", true⟩,
            ⟨"1.dcm", true⟩, ⟨"3.dcm", true⟩] := by rw [h1]; rfl
        rw [e1, e2]
        exact (by decide :
          List.Perm
            [(⟨"3.dcm", true⟩ : Entry), ⟨"1.dcm", true⟩, ⟨"2.dcm", true⟩,
             ⟨"junk.txt", true⟩]
            [⟨"junk.txt", true⟩, ⟨"2.dcm", true⟩, ⟨"1.dcm", true⟩,
             ⟨"3.dcm", true⟩])
      · by_cases h2 : p = "c/C1/i-contours"
        · have e1 : exFS p = some [⟨"IM-0001-0003-icontour.txt", true⟩,
              ⟨"IM-0001-0002-icontour.txt", true⟩] := by rw [h2]; rfl
          have e2 : exFSw p = some [⟨"IM-0001-0002-icontour.txt", true⟩,
              ⟨"IM-0001-0003-icontour.txt", true⟩] := by rw [h2]; rfl
          rw [e1, e2]
          exact (by decide :
            List.Perm
              [(⟨"IM-0001-0003-icontour.txt", true⟩ : Entry),
               ⟨"IM-0001-0002-icontour.txt", true⟩]
              [⟨"IM-0001-0002-icontour.txt", true⟩,
               ⟨"IM-0001-0003-icontour.txt", true⟩])
        · have e1 : exFS p = none := by
            unfold exFS
            rw [if_neg h1, if_neg h2]
          have e2 : exFSw p = none := by
            unfold exFSw
            rw [if_neg h1, if_neg h2]
          rw [e1, e2]
          trivial)
    (fun p es h => by
      unfold exFS at h
      by_cases h1 : p = "d/P1"
      · rw [h1, if_pos rfl] at h
        injection h with h3
        subst h3
        exact ⟨by decide, by decide⟩
      · by_cases h2 : p = "c/C1/i-contours"
        · rw [h2, if_neg (by decide), if_pos rfl] at h
          injection h with h3
          subst h3
          exact ⟨by decide, by decide⟩
        · rw [if_neg h1, if_neg h2] at h
          exact absurd h (by simp))

/-! ## Shuffle lemmas (C9) -/

theorem count_set_add [DecidableEq α] :
    ∀ (l : List α) (i : Nat) (b x : α), i < l.length →
      (l.set i b).count x + (if l[i]? = some x then 1 else 0) =
        l.count x + (if b = x then 1 else 0) := by
  intro l
  induction l with
  | nil => intro i b x h; simp at h
  | cons c t ih =>
    intro i b x h
    cases i with
    | zero =>
      have hc1 : (b :: t).count x = t.count x + (if b = x then 1 else 0) := by
        simp [List.count_cons, beq_iff_eq]
      have hc2 : (c :: t).count x = t.count x + (if c = x then 1 else 0) := by
        simp [List.count_cons, beq_iff_eq]
      rw [List.set_cons_zero, hc1, hc2, List.getElem?_cons_zero]
      have hs : (if (some c : Option α) = some x then 1 else 0) =
          (if c = x then 1 else 0) := by simp
      rw [hs]
      split_ifs <;> omega
    | succ n =>
      rw [List.set_cons_succ]
      have hlen : n < t.length := by simpa using h
      have hrec := ih n b x hlen
      have hc1 : (c :: t.set n b).count x =
          (t.set n b).count x + (if c = x then 1 else 0) := by
        simp [List.count_cons, beq_iff_eq]
      have hc2 : (c :: t).count x = t.count x + (if c = x then 1 else 0) := by
        simp [List.count_cons, beq_iff_eq]
      rw [hc1, hc2, List.getElem?_cons_succ]
      split_ifs at hrec ⊢ <;> omega

theorem listSwap_perm [DecidableEq α] (l : List α) (i j : Nat) :
    (listSwap l i j).Perm l := by
  unfold listSwap
  cases hi : l[i]? with
  | none => exact List.Perm.refl l
  | some a =>
    cases hj : l[j]? with
    | none => exact List.Perm.refl l
    | some b =>
      obtain ⟨hil, hia⟩ := List.getElem?_eq_some.1 hi
      obtain ⟨hjl, hjb⟩ := List.getElem?_eq_some.1 hj
      rw [List.perm_iff_count]
      intro x
      have hjl2 : j < (l.set i b).length := by
        rw [List.length_set]
        exact hjl
      have h1 := count_set_add (l.set i b) j a x hjl2
      have h2 := count_set_add l i b x hil
      have hval : (l.set i b)[j]? = some b := by
        rw [List.getElem?_set]
        by_cases hij : i = j
        · rw [if_pos hij, if_pos (hij ▸ hil)]
        · rw [if_neg hij]
          exact hj
      rw [hval] at h1
      rw [hi] at h2
      have hsa : (if (some b : Option α) = some x then 1 else 0) =
          (if b = x then 1 else 0) := by simp
      have hsb : (if (some a : Option α) = some x then 1 else 0) =
          (if a = x then 1 else 0) := by simp
      rw [hsa] at h1
      rw [hsb] at h2
      show List.count x ((l.set i b).set j a) = List.count x l
      split_ifs at h1 h2 <;> omega

theorem fisherYatesGo_perm [DecidableEq α] (rand : Nat → Nat) :
    ∀ (c : Nat) (l : List α), (fisherYatesGo rand c l).Perm l := by
  intro c
  induction c with
  | zero => intro l; exact List.Perm.refl l
  | succ n ih =>
    intro l
    exact (ih _).trans (listSwap_perm l (n + 1) (rand (n + 1) % (n + 2)))

theorem fisherYates_perm [DecidableEq α] (rand : Nat → Nat) (l : List α) :
    (fisherYates rand l).Perm l :=
  fisherYatesGo_perm rand _ l

/-- C9: when shuffling is requested the emitted list is a permutation of
the entire canonical (non-shuffled) list — the shuffle acts on the full
list after all groups are emitted, not group by group — and with a seed
provided the result does not depend on the ambient generator state, so two
runs with the same seed produce the same permuted order. -/
theorem shuffle_perm_and_seed_deterministic (fs : FS)
    (rows : List (String × String)) (dd cd : String)
    (seedStream : Nat → Nat → Nat) (s : Nat) (e1 e2 : Nat → Nat)
    (sOpt : Option Nat) (l lc : List (String × String)) :
    getDicomContourPathTups fs rows dd cd true (some s) seedStream e1 =
      getDicomContourPathTups fs rows dd cd true (some s) seedStream e2 ∧
    (getDicomContourPathTups fs rows dd cd true sOpt seedStream e1 = .ok l →
     getDicomContourPathTups fs rows dd cd false none seedStream e1 =
       .ok lc →
     l.Perm lc) := by
  constructor
  · unfold getDicomContourPathTups
    cases correlatePairs fs rows dd cd <;> rfl
  · intro h1 h2
    unfold getDicomContourPathTups at h1 h2
    cases hcp : correlatePairs fs rows dd cd with
    | error e =>
      rw [hcp] at h1
      exact absurd h1 (by simp)
    | ok tups =>
      rw [hcp] at h1 h2
      have hlc : tups = lc := Except.ok.inj h2
      rw [← hlc]
      cases sOpt with
      | none =>
        have hl : fisherYates e1 tups = l := Except.ok.inj h1
        rw [← hl]
        exact fisherYates_perm e1 tups
      | some s2 =>
        have hl : fisherYates (seedStream s2) tups = l := Except.ok.inj h1
        rw [← hl]
        exact fisherYates_perm (seedStream s2) tups

/-- Witness for C9 on `exFS` with seed 1: the seeded run ignores the
ambient entropy stream, and the shuffled output (here the canonical two
pairs reversed) is a permutation of the canonical output. -/
theorem shuffle_perm_and_seed_deterministic_witness :
    (getDicomContourPathTups exFS exRows "d" "c" true (some 1)
        (fun s i => s + i) (fun _ => 0) =
      getDicomContourPathTups exFS exRows "d" "c" true (some 1)
        (fun s i => s + i) (fun _ => 7)) ∧
    List.Perm
      ([("d/P1/3.dcm", "c/C1/i-contours/IM-0001-0003-icontour.txt"),
        ("d/P1/2.dcm", "c/C1/i-contours/IM-0001-0002-icontour.txt")] :
        List (String × String))
      [("d/P1/2.dcm", "c/C1/i-contours/IM-0001-0002-icontour.txt"),
       ("d/P1/3.dcm", "c/C1/i-contours/IM-0001-0003-icontour.txt")] :=
  ⟨(shuffle_perm_and_seed_deterministic exFS exRows "d" "c"
      (fun s i => s + i) 1 (fun _ => 0) (fun _ => 7) (some 1)
      [("d/P1/3.dcm", "c/C1/i-contours/IM-0001-0003-icontour.txt"),
       ("d/P1/2.dcm", "c/C1/i-contours/IM-0001-0002-icontour.txt")]
      [("d/P1/2.dcm", "c/C1/i-contours/IM-0001-0002-icontour.txt"),
       ("d/P1/3.dcm", "c/C1/i-contours/IM-0001-0003-icontour.txt")]).1,
   (shuffle_perm_and_seed_deterministic exFS exRows "d" "c"
      (fun s i => s + i) 1 (fun _ => 0) (fun _ => 7) (some 1)
      [("d/P1/3.dcm", "c/C1/i-contours/IM-0001-0003-icontour.txt"),
       ("d/P1/2.dcm", "c/C1/i-contours/IM-0001-0002-icontour.txt")]
      [("d/P1/2.dcm", "c/C1/i-contours/IM-0001-0002-icontour.txt"),
       ("d/P1/3.dcm", "c/C1/i-contours/IM-0001-0003-icontour.txt")]).2
     rfl rfl⟩
